import Mathlib

/-!
Verification development for the whole-brain encoder repository.

The definitions below are a shallow embedding of the repository's core
tensor/control-flow code:
  * `scatterOnes` / `parcel_mask` — the parcel-membership mask built in
    `brain_encoder.__init__` (src/models/brain_encoder.py, lines 54-63);
  * `linearHead` / `readoutHead` — the readout in `brain_encoder.forward`
    (lines 134-137);
  * `unwrap_fmri` — the evaluation-time reconstruction (src/engine.py,
    lines 95-101);
  * `train_step` / `trainLogs` / `evaluate` — the control flow of
    `train_one_epoch` and `evaluate` (src/engine.py).

Tensors are modelled as (nested) lists of rationals; machine floats are
modelled by rationals together with an explicit finiteness classification
where the code branches on `math.isfinite`.
-/

namespace WholeBrain

/-! ### Generic list helpers -/

/-- Transpose-like reindexing used to model `torch.permute`: given a list of
rows, produce `cols` columns, reading missing entries as `d`.  For a
rectangular matrix whose rows all have length `cols` this is the usual
transpose (torch's `permute(1, 0)` / `movedim(1, -1)` on the two leading
dims). -/
def transposeD {α : Type} (d : α) (cols : Nat) (m : List (List α)) : List (List α) :=
  (List.range cols).map (fun j => m.map (fun r => r.getD j d))

/-- Boolean-mask selection, modelling `t[m]` for a 1-D tensor `t` and a
boolean mask `m` (also used for `recon[:, labels == idx]` with the label
equality mask): keep, in order, the entries whose mask bit is true. -/
def selectMask {α : Type} (row : List α) (m : List Bool) : List α :=
  ((row.zip m).filter (fun x => x.2)).map (fun x => x.1)

/-- Positional indexed assignment `r[idxs] = vals` (torch advanced-indexing
assignment, no accumulation): write `vals[k]` at position `idxs[k]`,
left to right.  Out-of-range writes are no-ops here; every use below
hypothesises in-range indices, matching torch, which raises on them. -/
def writeAt (r : List ℚ) (idxs : List Nat) (vals : List ℚ) : List ℚ :=
  (idxs.zip vals).foldl (fun acc iv => acc.set iv.1 iv.2) r

theorem length_writeAt (r : List ℚ) (idxs : List Nat) (vals : List ℚ) :
    (writeAt r idxs vals).length = r.length := by
  unfold writeAt
  induction (idxs.zip vals) generalizing r with
  | nil => rfl
  | cons iv t ih => simpa [List.foldl_cons] using (ih (r.set iv.1 iv.2)).trans (by simp)

theorem map_getD_range {α : Type} (l : List α) (d : α) :
    (List.range l.length).map (fun p => l.getD p d) = l := by
  induction l with
  | nil => rfl
  | cons a t ih =>
      rw [List.length_cons, List.range_succ_eq_map, List.map_cons, List.map_map]
      have h0 : (a :: t).getD 0 d = a := rfl
      have hs : ((fun p => (a :: t).getD p d) ∘ Nat.succ) = fun p => t.getD p d := by
        funext p
        simp [List.getD_cons_succ]
      rw [h0, hs, ih]

/-! ### ParcelMask construction (`brain_encoder.__init__`, lines 54-63)

`torch.zeros(num_hemi_voxels).scatter_(0, parcel, 1)` writes the value 1 at
every position listed in `parcel`, and raises if any listed index is out of
range `[0, num_hemi_voxels)`; the rows for all parcels are stacked and the
result is transposed (`permute(1, 0)`) to shape `(num_voxels, num_parcels)`.
Failure is modelled by `Option`: construction succeeds only when every index
is in range (torch checks each index before writing; since the raised
exception aborts construction, any partially written state is
unobservable). -/

/-- One `torch.zeros(n).scatter_(0, parcel, 1)` row. -/
def scatterOnes (n : Nat) (parcel : List Nat) : Option (List ℚ) :=
  if parcel.all (fun i => i < n) then
    some (parcel.foldl (fun v i => v.set i 1) (List.replicate n (0 : ℚ)))
  else none

/-- `torch.stack([...scatter... for parcel in dataset.parcels])`: the list of
scatter rows, with the failure of any row (an out-of-range index) aborting
construction. -/
def stackRows (n : Nat) : List (List Nat) → Option (List (List ℚ))
  | [] => some []
  | p :: ps =>
      match scatterOnes n p, stackRows n ps with
      | some r, some rs => some (r :: rs)
      | _, _ => none

/-- `self.parcel_mask`: the stacked scatter rows, transposed (`permute(1, 0)`)
to shape `(num_voxels, num_parcels)`. -/
def parcel_mask (n : Nat) (parcels : List (List Nat)) : Option (List (List ℚ)) :=
  (stackRows n parcels).map (fun rows => transposeD (0 : ℚ) n rows)

theorem getD_foldl_set (parcel : List Nat) (init : List ℚ) (v : Nat)
    (hin : ∀ i ∈ parcel, i < init.length) :
    (parcel.foldl (fun w i => w.set i 1) init).getD v 0
      = if v ∈ parcel then (1 : ℚ) else init.getD v 0 := by
  induction parcel generalizing init with
  | nil => simp
  | cons i t ih =>
      have hi : i < init.length := hin i (by simp)
      have ht : ∀ j ∈ t, j < (init.set i 1).length := by
        intro j hj; simpa using hin j (List.mem_cons_of_mem _ hj)
      simp only [List.foldl_cons]
      rw [ih (init.set i 1) ht]
      by_cases hvt : v ∈ t
      · simp [hvt]
      · by_cases hvi : v = i
        · subst hvi
          simp [hvt, List.getD_eq_getElem?_getD, List.getElem?_set_self hi]
        · simp [hvt, hvi, List.getD_eq_getElem?_getD, List.getElem?_set_ne (Ne.symm hvi)]

theorem length_foldl_set (parcel : List Nat) (init : List ℚ) :
    (parcel.foldl (fun w i => w.set i 1) init).length = init.length := by
  induction parcel generalizing init with
  | nil => rfl
  | cons i t ih => simpa [List.foldl_cons] using (ih (init.set i 1)).trans (by simp)

/-- The defining pointwise description of a scatter row: entry `v` is 1 when
`v` is listed in the parcel and 0 otherwise. -/
theorem scatterOnes_getD (n : Nat) (parcel : List Nat) (row : List ℚ) (v : Nat)
    (h : scatterOnes n parcel = some row) :
    row.getD v 0 = if v ∈ parcel then (1 : ℚ) else 0 := by
  unfold scatterOnes at h
  by_cases hall : parcel.all (fun i => i < n)
  · rw [if_pos hall] at h
    have hrow := (Option.some.injEq _ _).mp h.symm
    have hin : ∀ i ∈ parcel, i < (List.replicate n (0 : ℚ)).length := by
      intro i hi
      simpa using (List.all_eq_true.mp hall i hi)
    rw [hrow, getD_foldl_set parcel _ v hin]
    by_cases hv : v ∈ parcel
    · simp [hv]
    · simp [hv, List.getD]
  · rw [if_neg hall] at h; exact absurd h (by simp)

theorem scatterOnes_length (n : Nat) (parcel : List Nat) (row : List ℚ)
    (h : scatterOnes n parcel = some row) : row.length = n := by
  unfold scatterOnes at h
  by_cases hall : parcel.all (fun i => i < n)
  · rw [if_pos hall] at h
    have hrow := (Option.some.injEq _ _).mp h.symm
    rw [hrow, length_foldl_set]; simp
  · rw [if_neg hall] at h; exact absurd h (by simp)

theorem scatterOnes_isSome_iff (n : Nat) (parcel : List Nat) :
    (scatterOnes n parcel).isSome = true ↔ ∀ i ∈ parcel, i < n := by
  unfold scatterOnes
  by_cases hall : parcel.all (fun i => i < n)
  · simp only [if_pos hall, Option.isSome_some, true_iff]
    intro i hi; simpa using List.all_eq_true.mp hall i hi
  · simp only [if_neg hall, Option.isSome_none, Bool.false_eq_true, false_iff]
    intro hforall
    exact hall (List.all_eq_true.mpr (fun i hi => by simpa using hforall i hi))

theorem stackRows_isSome_iff (n : Nat) (parcels : List (List Nat)) :
    (stackRows n parcels).isSome = true ↔ ∀ pl ∈ parcels, ∀ i ∈ pl, i < n := by
  induction parcels with
  | nil => simp [stackRows]
  | cons p ps ih =>
      constructor
      · intro h pl hpl
        rcases hr : scatterOnes n p with _ | r
        · rw [stackRows, hr] at h; simp at h
        · rcases hrs : stackRows n ps with _ | rs
          · rw [stackRows, hr, hrs] at h; simp at h
          · rcases List.mem_cons.mp hpl with hpe | hmem
            · subst hpe
              have := (scatterOnes_isSome_iff n pl).mp (by rw [hr]; rfl)
              exact this
            · exact (ih.mp (by rw [hrs]; rfl)) pl hmem
      · intro h
        have hp : (scatterOnes n p).isSome = true :=
          (scatterOnes_isSome_iff n p).mpr (h p (by simp))
        have hps : (stackRows n ps).isSome = true :=
          ih.mpr (fun pl hpl => h pl (List.mem_cons_of_mem _ hpl))
        rcases Option.isSome_iff_exists.mp hp with ⟨r, hr⟩
        rcases Option.isSome_iff_exists.mp hps with ⟨rs, hrs⟩
        rw [stackRows, hr, hrs]; rfl

theorem stackRows_length (n : Nat) (parcels : List (List Nat)) (rows : List (List ℚ))
    (h : stackRows n parcels = some rows) : rows.length = parcels.length := by
  induction parcels generalizing rows with
  | nil => rw [stackRows] at h; cases h; rfl
  | cons p ps ih =>
      rcases hr : scatterOnes n p with _ | r <;> rcases hrs : stackRows n ps with _ | rs <;>
        rw [stackRows, hr, hrs] at h <;> cases h
      simpa using ih rs hrs

theorem stackRows_getElem? (n : Nat) (parcels : List (List Nat)) (rows : List (List ℚ))
    (h : stackRows n parcels = some rows) (p : Nat) (pl : List Nat)
    (hp : parcels[p]? = some pl) :
    ∃ r, rows[p]? = some r ∧ scatterOnes n pl = some r := by
  induction parcels generalizing rows p with
  | nil => simp at hp
  | cons q ps ih =>
      rcases hr : scatterOnes n q with _ | r <;> rcases hrs : stackRows n ps with _ | rs <;>
        rw [stackRows, hr, hrs] at h <;> cases h
      cases p with
      | zero =>
          simp only [List.getElem?_cons_zero, Option.some.injEq] at hp
          exact ⟨r, by simp, by rw [← hp]; exact hr⟩
      | succ p =>
          simp only [List.getElem?_cons_succ] at hp ⊢
          exact ih rs hrs p hp

theorem stackRows_mem (n : Nat) (parcels : List (List Nat)) (rows : List (List ℚ))
    (h : stackRows n parcels = some rows) (r : List ℚ) (hr : r ∈ rows) :
    ∃ pl ∈ parcels, scatterOnes n pl = some r := by
  induction parcels generalizing rows with
  | nil => rw [stackRows] at h; cases h; simp at hr
  | cons p ps ih =>
      rcases hq : scatterOnes n p with _ | q <;> rcases hrs : stackRows n ps with _ | rs <;>
        rw [stackRows, hq, hrs] at h <;> cases h
      rcases List.mem_cons.mp hr with he | hm
      · exact ⟨p, by simp, by rw [he]; exact hq⟩
      · rcases ih rs hrs hm with ⟨pl, hpl, hs⟩
        exact ⟨pl, List.mem_cons_of_mem _ hpl, hs⟩

/-! ### ReadoutHead (`brain_encoder.forward`, lines 134-137) -/

/-- One application of the shared `nn.Linear(hidden_dim, num_hemi_voxels)`
readout (`self.embed`) to a single parcel token: output entry `v` is the dot
product of the token with weight row `v`, plus bias entry `v`. -/
def linearHead (W : List (List ℚ)) (b : List ℚ) (t : List ℚ) : List ℚ :=
  (W.zip b).map (fun wb => ((t.zip wb.1).map (fun x => x.1 * x.2)).sum + wb.2)

/-- The readout of `brain_encoder.forward` for one sample:
`pred = self.embed(output_tokens)`; `pred = torch.movedim(pred, 1, -1)`;
`pred = pred * self.parcel_mask`; `pred = torch.sum(pred, dim=-1)`.
`tokens` is the sample's `(num_parcels, hidden_dim)` token list and `mask`
the `(num_voxels, num_parcels)` parcel mask; the output is the dense
`(num_voxels,)` prediction. -/
def readoutHead (W : List (List ℚ)) (b : List ℚ) (mask : List (List ℚ))
    (tokens : List (List ℚ)) : List ℚ :=
  let pred := tokens.map (linearHead W b)
  let predT := transposeD (0 : ℚ) mask.length pred
  (predT.zip mask).map (fun rm => ((rm.1.zip rm.2).map (fun x => x.1 * x.2)).sum)

theorem pairwise_zip {α β : Type} (R : α → α → Prop) :
    ∀ (l₁ : List α) (l₂ : List β), l₁.Pairwise R →
      (l₁.zip l₂).Pairwise (fun a b => R a.1 b.1)
  | [], _, _ => by simp
  | _ :: _, [], _ => by simp
  | a :: t₁, _ :: t₂, h => by
      rw [List.zip_cons_cons]
      refine List.Pairwise.cons ?_ (pairwise_zip R t₁ t₂ ((List.pairwise_cons.mp h).2))
      intro y hy
      obtain ⟨c, d⟩ := y
      exact (List.pairwise_cons.mp h).1 c (List.of_mem_zip hy).1

theorem sum_filter_owner (v : Nat) (f : List Nat × List ℚ → ℚ) :
    ∀ (L : List (List Nat × List ℚ)),
      L.Pairwise (fun a b => ∀ x ∈ a.1, x ∉ b.1) →
      ∀ pl tok, (pl, tok) ∈ L → v ∈ pl →
        ((L.filter (fun pt => v ∈ pt.1)).map f).sum = f (pl, tok) := by
  intro L
  induction L with
  | nil => intro _ pl tok hmem; simp at hmem
  | cons a L ih =>
      intro hpw pl tok hmem hv
      rcases List.mem_cons.mp hmem with he | hm
      · subst he
        rw [List.filter_cons_of_pos (by simpa using hv)]
        have hnone : List.filter (fun pt => decide (v ∈ pt.1)) L = [] := by
          refine List.filter_eq_nil_iff.mpr ?_
          intro b hb
          simpa using (List.pairwise_cons.mp hpw).1 b hb v hv
        rw [List.map_cons, List.sum_cons, hnone]
        simp
      · have hva : v ∉ a.1 := by
          intro hva
          exact (List.pairwise_cons.mp hpw).1 (pl, tok) hm v hva hv
        rw [List.filter_cons_of_neg (by simpa using hva)]
        exact ih (List.pairwise_cons.mp hpw).2 pl tok hm hv

theorem sum_zip_proj (n : Nat) (W : List (List ℚ)) (b : List ℚ) (v : Nat) :
    ∀ (parcels : List (List Nat)) (tokens : List (List ℚ)) (rows : List (List ℚ)),
      stackRows n parcels = some rows → tokens.length = parcels.length →
      (((tokens.map (linearHead W b)).zip rows).map
          (fun pr => pr.1.getD v 0 * pr.2.getD v 0)).sum
        = (((parcels.zip tokens).filter (fun pt => v ∈ pt.1)).map
            (fun pt => (linearHead W b pt.2).getD v 0)).sum := by
  intro parcels
  induction parcels with
  | nil =>
      intro tokens rows hrows hlen
      rw [stackRows] at hrows; cases hrows
      simp
  | cons p ps ih =>
      intro tokens rows hrows hlen
      rcases hq : scatterOnes n p with _ | q <;> rcases hrs : stackRows n ps with _ | rs <;>
        rw [stackRows, hq, hrs] at hrows <;> cases hrows
      cases tokens with
      | nil => simp at hlen
      | cons tk ts =>
          have hlen' : ts.length = ps.length := by simpa using hlen
          rw [List.map_cons, List.zip_cons_cons, List.map_cons, List.sum_cons,
            ih ts rs hrs hlen', List.zip_cons_cons]
          rw [scatterOnes_getD n p q v hq]
          by_cases hv : v ∈ p
          · rw [List.filter_cons_of_pos (by simpa using hv), List.map_cons, List.sum_cons]
            simp [hv]
          · rw [List.filter_cons_of_neg (by simpa using hv)]
            simp [hv]

/-- **C1**: for token tensors over a `ParcelMask` built from the parcel list,
the `ReadoutHead` value at a voxel `v` is the sum, over the parcels that
contain `v`, of the shared linear projection's output at index `v`; when the
parcels are pairwise disjoint this degenerates to the single owning parcel's
projected value at `v`. -/
theorem readout_sum_and_owner
    (n : Nat) (parcels : List (List Nat)) (W : List (List ℚ)) (b : List ℚ)
    (tokens : List (List ℚ)) (M : List (List ℚ)) (v : Nat)
    (hM : parcel_mask n parcels = some M)
    (htok : tokens.length = parcels.length)
    (hv : v < n) :
    (readoutHead W b M tokens).getD v 0
        = (((parcels.zip tokens).filter (fun pt => v ∈ pt.1)).map
            (fun pt => (linearHead W b pt.2).getD v 0)).sum
    ∧ (parcels.Pairwise (fun a c => ∀ x ∈ a, x ∉ c) →
        ∀ pl tok, (pl, tok) ∈ parcels.zip tokens → v ∈ pl →
          (readoutHead W b M tokens).getD v 0 = (linearHead W b tok).getD v 0) := by
  rcases hrows : stackRows n parcels with _ | rows
  · rw [parcel_mask, hrows] at hM; simp at hM
  · rw [parcel_mask, hrows, Option.map_some'] at hM
    have hMval : M = transposeD (0 : ℚ) n rows := ((Option.some.injEq _ _).mp hM).symm
    have hMlen : M.length = n := by rw [hMval]; simp [transposeD]
    have hmain : (readoutHead W b M tokens).getD v 0
        = (((parcels.zip tokens).filter (fun pt => v ∈ pt.1)).map
            (fun pt => (linearHead W b pt.2).getD v 0)).sum := by
      have hro : readoutHead W b M tokens
          = (List.range n).map (fun j =>
              (((tokens.map (linearHead W b)).map (fun r => r.getD j 0)).zip
                (rows.map (fun r => r.getD j 0))).map (fun x => x.1 * x.2) |>.sum) := by
        rw [readoutHead, hMlen, hMval, transposeD, transposeD, List.zip_map']
        rw [List.map_map]
        rfl
      have hlt : v < ((List.range n).map (fun j =>
          (((tokens.map (linearHead W b)).map (fun r => r.getD j 0)).zip
            (rows.map (fun r => r.getD j 0))).map (fun x => x.1 * x.2) |>.sum)).length := by
        simpa using hv
      rw [hro, List.getD_eq_getElem _ _ hlt, List.getElem_map, List.getElem_range]
      rw [List.zip_map, List.map_map]
      rw [← sum_zip_proj n W b v parcels tokens rows hrows htok]
      rfl
    refine ⟨hmain, fun hpw pl tok hmem hvp => ?_⟩
    rw [hmain]
    exact sum_filter_owner v _ (parcels.zip tokens)
      (pairwise_zip _ parcels tokens hpw) pl tok hmem hvp

theorem readout_sum_and_owner_witness :
    ((readoutHead [[3],[5]] [1,1] [[1,0],[0,1]] [[2],[4]]).getD 0 0
        = ((([[0],[1]].zip [[2],[4]]).filter (fun pt => 0 ∈ pt.1)).map
            (fun pt => (linearHead [[3],[5]] [1,1] pt.2).getD 0 0)).sum)
    ∧ (readoutHead [[3],[5]] [1,1] [[1,0],[0,1]] [[2],[4]]).getD 0 0
        = (linearHead [[3],[5]] [1,1] [2]).getD 0 0 := by
  have h := readout_sum_and_owner 2 [[0],[1]] [[3],[5]] [1,1] [[2],[4]] [[1,0],[0,1]] 0
    (by rfl) (by rfl) (by decide)
  exact ⟨h.1, h.2 (by decide) [0] [2] (by decide) (by decide)⟩

/-- Pointwise description of the constructed mask: entry `(v, p)` is 1 when
voxel `v` is listed in parcel `p` and 0 otherwise. -/
theorem parcel_mask_entry (n : Nat) (parcels : List (List Nat)) (M : List (List ℚ))
    (hM : parcel_mask n parcels = some M) (v : Nat) (hv : v < n)
    (p : Nat) (pl : List Nat) (hp : parcels[p]? = some pl) :
    (M.getD v []).getD p 0 = if v ∈ pl then (1 : ℚ) else 0 := by
  rcases hrows : stackRows n parcels with _ | rows
  · rw [parcel_mask, hrows] at hM; simp at hM
  · rw [parcel_mask, hrows, Option.map_some'] at hM
    have hMval : M = transposeD (0 : ℚ) n rows := ((Option.some.injEq _ _).mp hM).symm
    rcases stackRows_getElem? n parcels rows hrows p pl hp with ⟨r, hr, hscat⟩
    have hMv : M.getD v [] = rows.map (fun row => row.getD v 0) := by
      rw [hMval, transposeD, List.getD_eq_getElem?_getD, List.getElem?_map,
        List.getElem?_range hv]
      rfl
    rw [hMv, List.getD_eq_getElem?_getD, List.getElem?_map, hr]
    exact scatterOnes_getD n pl r v hscat

/-- Column `p` of the constructed mask, as a length-`n` list of indicators. -/
theorem parcel_mask_col (n : Nat) (parcels : List (List Nat)) (M : List (List ℚ))
    (hM : parcel_mask n parcels = some M)
    (p : Nat) (pl : List Nat) (hp : parcels[p]? = some pl) :
    M.map (fun row => row.getD p 0)
      = (List.range n).map (fun v => if v ∈ pl then (1 : ℚ) else 0) := by
  rcases hrows : stackRows n parcels with _ | rows
  · rw [parcel_mask, hrows] at hM; simp at hM
  · rw [parcel_mask, hrows, Option.map_some'] at hM
    have hMval : M = transposeD (0 : ℚ) n rows := ((Option.some.injEq _ _).mp hM).symm
    rcases stackRows_getElem? n parcels rows hrows p pl hp with ⟨r, hr, hscat⟩
    rw [hMval, transposeD, List.map_map]
    refine List.map_congr_left ?_
    intro v _
    simp only [Function.comp]
    rw [List.getD_eq_getElem?_getD, List.getElem?_map, hr]
    exact scatterOnes_getD n pl r v hscat

/-- Summing a membership-indicator over the whole voxel range counts the
parcel's (distinct, in-range) indices. -/
theorem sum_ite_mem_range (n : Nat) (pl : List Nat)
    (hrange : ∀ i ∈ pl, i < n) (hnodup : pl.Nodup) :
    ((List.range n).map (fun v => if v ∈ pl then (1 : ℚ) else 0)).sum
      = (pl.length : ℚ) := by
  have hbridge : ((List.range n).map (fun v => if v ∈ pl then (1 : ℚ) else 0)).sum
      = ∑ v ∈ Finset.range n, (if v ∈ pl.toFinset then (1 : ℚ) else 0) := by
    have : (fun v => if v ∈ pl then (1 : ℚ) else 0)
        = fun v => if v ∈ pl.toFinset then (1 : ℚ) else 0 := by
      funext v; simp [List.mem_toFinset]
    rw [this]; rfl
  rw [hbridge, Finset.sum_ite_mem]
  have hsub : pl.toFinset ⊆ Finset.range n := by
    intro v hvm
    exact Finset.mem_range.mpr (hrange v (List.mem_toFinset.mp hvm))
  rw [Finset.inter_eq_right.mpr hsub, Finset.sum_const, List.toFinset_card_of_nodup hnodup]
  simp

/-- With pairwise-disjoint parcels, a voxel determines its owning parcel
index. -/
theorem owner_unique (parcels : List (List Nat))
    (hdisj : parcels.Pairwise (fun a c => ∀ x ∈ a, x ∉ c))
    (p q : Nat) (pl plq : List Nat) (v : Nat)
    (hp : parcels[p]? = some pl) (hq : parcels[q]? = some plq)
    (hvp : v ∈ pl) (hvq : v ∈ plq) : p = q := by
  rcases List.getElem?_eq_some.mp hp with ⟨hplt, hpe⟩
  rcases List.getElem?_eq_some.mp hq with ⟨hqlt, hqe⟩
  rcases Nat.lt_trichotomy p q with hlt | heq | hgt
  · exact absurd hvq (by
      have := (List.pairwise_iff_getElem.mp hdisj) p q hplt hqlt hlt
      rw [hpe, hqe] at this
      exact this v hvp)
  · exact heq
  · exact absurd hvp (by
      have := (List.pairwise_iff_getElem.mp hdisj) q p hqlt hplt hgt
      rw [hpe, hqe] at this
      exact this v hvq)

/-- **C4**: for pairwise-disjoint, in-range (duplicate-free) parcels,
`ParcelMask` construction succeeds and yields an `(n, P)` matrix whose
column `p` is 1 exactly at the voxel indices of parcel `p`; each column sums
to that parcel's size, and each listed voxel index has value 1 in exactly one
column. -/
theorem parcel_mask_columns
    (n : Nat) (parcels : List (List Nat))
    (hrange : ∀ pl ∈ parcels, ∀ i ∈ pl, i < n)
    (hnodup : ∀ pl ∈ parcels, pl.Nodup)
    (hdisj : parcels.Pairwise (fun a c => ∀ x ∈ a, x ∉ c)) :
    ∃ M, parcel_mask n parcels = some M
      ∧ M.length = n
      ∧ (∀ row ∈ M, row.length = parcels.length)
      ∧ (∀ v, v < n → ∀ p pl, parcels[p]? = some pl →
          (M.getD v []).getD p 0 = if v ∈ pl then (1 : ℚ) else 0)
      ∧ (∀ p pl, parcels[p]? = some pl →
          (M.map (fun row => row.getD p 0)).sum = (pl.length : ℚ))
      ∧ (∀ p pl, parcels[p]? = some pl → ∀ v ∈ pl, ∀ q plq, parcels[q]? = some plq →
          ((M.getD v []).getD q 0 = 1 ↔ q = p)) := by
  have hsome : (stackRows n parcels).isSome = true :=
    (stackRows_isSome_iff n parcels).mpr hrange
  rcases Option.isSome_iff_exists.mp hsome with ⟨rows, hrows⟩
  refine ⟨transposeD (0 : ℚ) n rows, ?_, ?_, ?_, ?_, ?_, ?_⟩
  · rw [parcel_mask, hrows]; rfl
  · simp [transposeD]
  · intro row hrow
    rcases List.mem_map.mp hrow with ⟨v, _, hrv⟩
    rw [← hrv, List.length_map, stackRows_length n parcels rows hrows]
  · intro v hv p pl hp
    exact parcel_mask_entry n parcels _ (by rw [parcel_mask, hrows]; rfl) v hv p pl hp
  · intro p pl hp
    rw [parcel_mask_col n parcels _ (by rw [parcel_mask, hrows]; rfl) p pl hp]
    exact sum_ite_mem_range n pl (hrange pl (List.getElem?_mem hp))
      (hnodup pl (List.getElem?_mem hp))
  · intro p pl hp v hvp q plq hq
    have hv : v < n := hrange pl (List.getElem?_mem hp) v hvp
    rw [parcel_mask_entry n parcels _ (by rw [parcel_mask, hrows]; rfl) v hv q plq hq]
    constructor
    · intro h1
      by_cases hvq : v ∈ plq
      · exact (owner_unique parcels hdisj q p plq pl v hq hp hvq hvp)
      · rw [if_neg hvq] at h1; exact absurd h1 (by norm_num)
    · intro hqp
      subst hqp
      have : pl = plq := by rw [hp] at hq; exact (Option.some.injEq _ _).mp hq
      subst this
      rw [if_pos hvp]

theorem parcel_mask_columns_witness :
    ∃ M, parcel_mask 3 [[0, 2], [1]] = some M
      ∧ M.length = 3
      ∧ (∀ row ∈ M, row.length = 2)
      ∧ (∀ v, v < 3 → ∀ p pl, [[0, 2], [1]][p]? = some pl →
          (M.getD v []).getD p 0 = if v ∈ pl then (1 : ℚ) else 0)
      ∧ (∀ p pl, [[0, 2], [1]][p]? = some pl →
          (M.map (fun row => row.getD p 0)).sum = (pl.length : ℚ))
      ∧ (∀ p pl, [[0, 2], [1]][p]? = some pl → ∀ v ∈ pl, ∀ q plq,
            [[0, 2], [1]][q]? = some plq →
          ((M.getD v []).getD q 0 = 1 ↔ q = p)) := by
  have h := parcel_mask_columns 3 [[0, 2], [1]] (by decide) (by decide) (by decide)
  simpa using h

/-- **C5**: an out-of-range voxel index in any parcel makes `ParcelMask`
construction fail (the underlying `scatter_` raises), at model-build time. -/
theorem parcel_mask_out_of_range
    (n : Nat) (parcels : List (List Nat))
    (h : ∃ pl ∈ parcels, ∃ i ∈ pl, ¬ i < n) :
    parcel_mask n parcels = none := by
  rcases hrows : stackRows n parcels with _ | rows
  · rw [parcel_mask, hrows]; rfl
  · exfalso
    rcases h with ⟨pl, hpl, i, hi, hni⟩
    exact hni ((stackRows_isSome_iff n parcels).mp (by rw [hrows]; rfl) pl hpl i hi)

theorem parcel_mask_out_of_range_witness :
    parcel_mask 2 [[0], [5]] = none :=
  parcel_mask_out_of_range 2 [[0], [5]] ⟨[5], by decide, 5, by decide, by decide⟩

/-- **C10**: every entry of a successfully constructed `ParcelMask` is 0 or 1
— `scatter_` assigns the constant 1 rather than accumulating, so repeated or
shared indices never produce an entry greater than 1. -/
theorem parcel_mask_entries_boolean
    (n : Nat) (parcels : List (List Nat)) (M : List (List ℚ))
    (hM : parcel_mask n parcels = some M) :
    ∀ row ∈ M, ∀ x ∈ row, x = 0 ∨ x = 1 := by
  rcases hrows : stackRows n parcels with _ | rows
  · rw [parcel_mask, hrows] at hM; simp at hM
  · rw [parcel_mask, hrows, Option.map_some'] at hM
    have hMval : M = transposeD (0 : ℚ) n rows := ((Option.some.injEq _ _).mp hM).symm
    intro row hrow x hx
    rw [hMval, transposeD] at hrow
    rcases List.mem_map.mp hrow with ⟨v, _, hrv⟩
    rw [← hrv] at hx
    rcases List.mem_map.mp hx with ⟨r, hr, hxr⟩
    rcases stackRows_mem n parcels rows hrows r hr with ⟨pl, _, hscat⟩
    rw [← hxr, scatterOnes_getD n pl r v hscat]
    by_cases hv : v ∈ pl
    · right; rw [if_pos hv]
    · left; rw [if_neg hv]

theorem parcel_mask_entries_boolean_witness :
    (1 : ℚ) = 0 ∨ (1 : ℚ) = 1 :=
  parcel_mask_entries_boolean 1 [[0, 0], [0]] [[1, 1]] (by rfl)
    [1, 1] (by decide) 1 (by decide)

/-! ### unwrap_fmri (src/engine.py, lines 95-101) -/

/-- The dataset fields consumed by the engine: `parcels` (per-parcel
voxel-index lists), `mask` (per-parcel slot-validity rows of width
`max_parcel_size`), and `labels` (per-voxel label rows; the code reads
column 0 as `dataset.labels[:, 0]`). -/
structure Dataset where
  parcels : List (List Nat)
  mask : List (List Bool)
  labels : List (List Nat)

/-- `dataset.labels[:, 0]`: the per-voxel metaparcel label column. -/
def Dataset.labels0 (ds : Dataset) : List Nat :=
  ds.labels.map (fun row => row.getD 0 0)

/-- `unwrap_fmri(batch_size, fmri_data, dataset, metaparcel_idx)`:
`recon = torch.zeros(batch_size, *dataset.labels[:, 0].shape)`; then, for
each `(idxs, betas, m)` in `zip(dataset.parcels, fmri_data.permute(1, 0, 2),
dataset.mask)`, the batched indexed assignment `recon[:, idxs] = betas[:, m]`;
finally the label restriction `recon[:, dataset.labels[:, 0] ==
metaparcel_idx]`.  Torch's simultaneous indexed assignment is rendered as
left-to-right writes (on duplicate indices torch leaves the written value
unspecified; everywhere else the two semantics agree). -/
def unwrap_fmri (batch_size : Nat) (fmri_data : List (List (List ℚ)))
    (ds : Dataset) (metaparcel_idx : Nat) : List (List ℚ) :=
  ((ds.parcels.zip
      ((transposeD ([] : List ℚ) (fmri_data.headD []).length fmri_data).zip ds.mask)).foldl
    (fun recon pbm =>
      List.zipWith (fun row brow => writeAt row pbm.1 (selectMask brow pbm.2.2))
        recon pbm.2.1)
    (List.replicate batch_size (List.replicate ds.labels0.length (0 : ℚ)))).map
    (fun row => selectMask row (ds.labels0.map (fun l => l == metaparcel_idx)))

/-- Modelled from the spec: §4.4's input layout, the parcel-slot packing of a
dense voxel vector `x` into one slot row per parcel — each valid (mask-true)
slot holds the value of `x` at the parcel's next listed index, padding slots
hold 0. -/
def packRow (x : List ℚ) : List Nat → List Bool → List ℚ
  | _, [] => []
  | idxs, false :: m => 0 :: packRow x idxs m
  | [], true :: m => 0 :: packRow x [] m
  | i :: idxs, true :: m => x.getD i 0 :: packRow x idxs m

/-- Modelled from the spec: the `(B, num_parcels, max_parcel_size)` batch of
parcel-slot packings of the dense vector `x` that `unwrap_fmri` consumes. -/
def pack_fmri (B : Nat) (x : List ℚ) (ds : Dataset) : List (List (List ℚ)) :=
  List.replicate B ((ds.parcels.zip ds.mask).map (fun pm => packRow x pm.1 pm.2))

/-- The number of element writes the `unwrap_fmri` loop performs at voxel `v`
when every value row carries one value per valid slot (the packed layout):
parcel `p` writes at the first `count true (mask p)` entries of its index
list, so `v` receives one write per occurrence there. -/
def unwrapWriteCount (ds : Dataset) (v : Nat) : Nat :=
  ((ds.parcels.zip ds.mask).map
    (fun pm => (pm.1.take (pm.2.count true)).count v)).sum

theorem selectMask_packRow (x : List ℚ) :
    ∀ (m : List Bool) (idxs : List Nat), m.count true = idxs.length →
      selectMask (packRow x idxs m) m = idxs.map (fun i => x.getD i 0) := by
  intro m
  induction m with
  | nil =>
      intro idxs h
      have : idxs = [] := List.eq_nil_of_length_eq_zero (by simpa using h.symm)
      subst this; rfl
  | cons bit m ih =>
      intro idxs h
      cases bit with
      | false =>
          rw [List.count_cons_of_ne (by decide)] at h
          rw [packRow, selectMask, List.zip_cons_cons,
            List.filter_cons_of_neg (by simp)]
          exact ih idxs h
      | true =>
          rw [List.count_cons_self] at h
          cases idxs with
          | nil => exact absurd h (by simp)
          | cons i idxs =>
              rw [packRow, selectMask, List.zip_cons_cons,
                List.filter_cons_of_pos (by simp), List.map_cons, List.map_cons]
              exact congrArg (x.getD i 0 :: ·)
                (ih idxs (by simp only [List.length_cons] at h; omega))

theorem getD_writeAt_self (f : Nat → ℚ) :
    ∀ (idxs : List Nat) (r : List ℚ), (∀ i ∈ idxs, i < r.length) → ∀ v,
      (writeAt r idxs (idxs.map f)).getD v 0
        = if v ∈ idxs then f v else r.getD v 0 := by
  intro idxs
  induction idxs with
  | nil => intro r _ v; simp [writeAt]
  | cons i t ih =>
      intro r hin v
      have hstep : writeAt r (i :: t) ((i :: t).map f)
          = writeAt (r.set i (f i)) t (t.map f) := by
        rw [writeAt, List.map_cons, List.zip_cons_cons, List.foldl_cons]; rfl
      rw [hstep, ih (r.set i (f i)) (by intro j hj; simpa using hin j (List.mem_cons_of_mem _ hj)) v]
      by_cases hvt : v ∈ t
      · simp [hvt]
      · by_cases hvi : v = i
        · subst hvi
          have hi : v < r.length := hin v (by simp)
          simp [hvt, List.getD_eq_getElem?_getD, List.getElem?_set_self hi]
        · simp [hvt, hvi, List.getD_eq_getElem?_getD, List.getElem?_set_ne (Ne.symm hvi)]

theorem sum_map_pos_iff {α : Type} (L : List α) (g : α → Nat) :
    0 < (L.map g).sum ↔ ∃ a ∈ L, 0 < g a := by
  induction L with
  | nil => simp
  | cons a L ih =>
      rw [List.map_cons, List.sum_cons]
      constructor
      · intro h
        by_cases hga : 0 < g a
        · exact ⟨a, by simp, hga⟩
        · have hr : 0 < (L.map g).sum := by omega
          rcases ih.mp hr with ⟨b, hb, hgb⟩
          exact ⟨b, List.mem_cons_of_mem _ hb, hgb⟩
      · rintro ⟨b, hb, hgb⟩
        rcases List.mem_cons.mp hb with he | hm
        · subst he; exact Nat.lt_of_lt_of_le hgb (Nat.le_add_right _ _)
        · exact Nat.lt_of_lt_of_le (ih.mpr ⟨b, hm, hgb⟩) (Nat.le_add_left _ _)

theorem zipWith_replicate_same {α β γ : Type} (f : α → β → γ) :
    ∀ (n : Nat) (a : α) (b : β),
      List.zipWith f (List.replicate n a) (List.replicate n b)
        = List.replicate n (f a b)
  | 0, _, _ => rfl
  | n + 1, a, b => by
      simp only [List.replicate_succ, List.zipWith_cons_cons,
        zipWith_replicate_same f n a b]

theorem transposeD_replicate {α : Type} (d : α) (B : Nat) (l : List α) :
    transposeD d l.length (List.replicate B l)
      = l.map (fun a => List.replicate B a) := by
  rw [transposeD]
  calc (List.range l.length).map (fun j => (List.replicate B l).map (fun r => r.getD j d))
      = (List.range l.length).map (fun j => List.replicate B (l.getD j d)) := by
        simp [List.map_replicate]
    _ = ((List.range l.length).map (fun j => l.getD j d)).map
          (fun a => List.replicate B a) := by rw [List.map_map]; rfl
    _ = l.map (fun a => List.replicate B a) := by rw [map_getD_range]

theorem length_foldl_writeAt (x : List ℚ) :
    ∀ (L : List (List Nat × List Bool)) (r : List ℚ),
      ((L.foldl
          (fun rr pm => writeAt rr pm.1 (selectMask (packRow x pm.1 pm.2) pm.2))
          r).length) = r.length := by
  intro L
  induction L with
  | nil => intro r; rfl
  | cons pm L ih =>
      intro r
      rw [List.foldl_cons, ih, length_writeAt]

theorem getD_foldl_writeAt (x : List ℚ) (v : Nat) :
    ∀ (L : List (List Nat × List Bool)) (r : List ℚ),
      (∀ pm ∈ L, ∀ i ∈ pm.1, i < r.length) →
      (∀ pm ∈ L, pm.2.count true = pm.1.length) →
      ((L.foldl
          (fun rr pm => writeAt rr pm.1 (selectMask (packRow x pm.1 pm.2) pm.2))
          r).getD v 0)
        = if ∃ pm ∈ L, v ∈ pm.1 then x.getD v 0 else r.getD v 0 := by
  intro L
  induction L with
  | nil => intro r _ _; simp
  | cons pm L ih =>
      intro r hin hwf
      rw [List.foldl_cons, selectMask_packRow x pm.2 pm.1 (hwf pm (by simp))]
      have hstep : (writeAt r pm.1 (pm.1.map fun i => x.getD i 0)).length = r.length :=
        length_writeAt _ _ _
      rw [ih (writeAt r pm.1 (pm.1.map fun i => x.getD i 0))
        (by intro pm' hpm' i hi
            rw [hstep]
            exact hin pm' (List.mem_cons_of_mem _ hpm') i hi)
        (fun pm' hpm' => hwf pm' (List.mem_cons_of_mem _ hpm'))]
      rw [getD_writeAt_self (fun i => x.getD i 0) pm.1 r (hin pm (by simp)) v]
      by_cases hL : ∃ pm' ∈ L, v ∈ pm'.1
      · rw [if_pos hL, if_pos ⟨hL.choose, List.mem_cons_of_mem _ hL.choose_spec.1,
          hL.choose_spec.2⟩]
      · rw [if_neg hL]
        by_cases hp : v ∈ pm.1
        · rw [if_pos hp, if_pos ⟨pm, by simp, hp⟩]
        · rw [if_neg hp, if_neg ?_]
          rintro ⟨pm', hpm', hv⟩
          rcases List.mem_cons.mp hpm' with he | hm
          · subst he; exact hp hv
          · exact hL ⟨pm', hm, hv⟩

theorem foldBatch_replicate (x : List ℚ) (B : Nat) :
    ∀ (parcels : List (List Nat)) (mask : List (List Bool)) (r : List ℚ),
      ((parcels.zip ((((parcels.zip mask).map (fun pm => packRow x pm.1 pm.2)).map
          (fun row => List.replicate B row)).zip mask)).foldl
        (fun recon pbm => List.zipWith
            (fun row brow => writeAt row pbm.1 (selectMask brow pbm.2.2))
            recon pbm.2.1)
        (List.replicate B r))
      = List.replicate B
          ((parcels.zip mask).foldl
            (fun rr pm => writeAt rr pm.1 (selectMask (packRow x pm.1 pm.2) pm.2))
            r) := by
  intro parcels
  induction parcels with
  | nil => intro mask r; rfl
  | cons p ps ih =>
      intro mask r
      cases mask with
      | nil => rfl
      | cons m ms =>
          rw [List.zip_cons_cons, List.map_cons, List.map_cons, List.zip_cons_cons,
            List.zip_cons_cons, List.foldl_cons, List.foldl_cons]
          rw [zipWith_replicate_same]
          exact ih ms (writeAt r p (selectMask (packRow x p m) m))

theorem covered_iff_pos_writeCount (ds : Dataset) (v : Nat)
    (hwf : ∀ pm ∈ ds.parcels.zip ds.mask, pm.2.count true = pm.1.length) :
    (∃ pm ∈ ds.parcels.zip ds.mask, v ∈ pm.1) ↔ 0 < unwrapWriteCount ds v := by
  rw [unwrapWriteCount, sum_map_pos_iff]
  constructor
  · rintro ⟨pm, hpm, hv⟩
    refine ⟨pm, hpm, ?_⟩
    rw [hwf pm hpm, List.take_length]
    exact List.count_pos_iff.mpr hv
  · rintro ⟨pm, hpm, hc⟩
    rw [hwf pm hpm, List.take_length] at hc
    exact ⟨pm, hpm, List.count_pos_iff.mp hc⟩

theorem sum_count_eq_one (v : Nat) :
    ∀ (L : List (List Nat × List Bool)),
      L.Pairwise (fun a b => ∀ i ∈ a.1, i ∉ b.1) →
      (∀ pm ∈ L, pm.1.Nodup) →
      (∀ pm ∈ L, pm.2.count true = pm.1.length) →
      0 < (L.map (fun pm => (pm.1.take (pm.2.count true)).count v)).sum →
      (L.map (fun pm => (pm.1.take (pm.2.count true)).count v)).sum = 1 := by
  intro L
  induction L with
  | nil => intro _ _ _ hpos; simp at hpos
  | cons pm L ih =>
      intro hpw hnd hwf hpos
      rw [List.map_cons, List.sum_cons] at hpos ⊢
      rw [hwf pm (by simp), List.take_length] at hpos ⊢
      by_cases hv : v ∈ pm.1
      · have h1 : pm.1.count v = 1 :=
          Nat.le_antisymm (List.nodup_iff_count_le_one.mp (hnd pm (by simp)) v)
            (List.count_pos_iff.mpr hv)
        have h0 : (L.map (fun pm => (pm.1.take (pm.2.count true)).count v)).sum = 0 := by
          refine List.sum_eq_zero ?_
          intro c hc
          rcases List.mem_map.mp hc with ⟨pm', hpm', hce⟩
          have hvn : v ∉ pm'.1 := (List.pairwise_cons.mp hpw).1 pm' hpm' v hv
          rw [← hce, hwf pm' (List.mem_cons_of_mem _ hpm'), List.take_length]
          exact List.count_eq_zero.mpr hvn
        rw [h1, h0]
      · have h0 : pm.1.count v = 0 := List.count_eq_zero.mpr hv
        rw [h0, Nat.zero_add] at hpos ⊢
        exact ih (List.pairwise_cons.mp hpw).2
          (fun pm' hpm' => hnd pm' (List.mem_cons_of_mem _ hpm'))
          (fun pm' hpm' => hwf pm' (List.mem_cons_of_mem _ hpm')) hpos

/-- **C2** (amended): packing a dense voxel vector into the parcel-slot
layout and unwrapping returns the original value at every voxel covered by a
valid parcel slot and zero at every uncovered voxel, restricted to the voxels
whose label equals the requested metaparcel index; each covered voxel
receives at least one direct-assignment write, and exactly one when the
parcel lists are duplicate-free and pairwise disjoint (overlapping writes
rewrite the same packed value, so the reconstruction is unaffected). -/
theorem unwrap_pack_left_inverse
    (B : Nat) (x : List ℚ) (ds : Dataset) (meta : Nat)
    (hwf : ∀ pm ∈ ds.parcels.zip ds.mask, pm.2.count true = pm.1.length)
    (hin : ∀ pm ∈ ds.parcels.zip ds.mask, ∀ i ∈ pm.1, i < ds.labels0.length) :
    unwrap_fmri B (pack_fmri B x ds) ds meta
      = List.replicate B (selectMask
          ((List.range ds.labels0.length).map
            (fun v => if 0 < unwrapWriteCount ds v then x.getD v 0 else 0))
          (ds.labels0.map (fun l => l == meta)))
    ∧ (ds.parcels.Pairwise (fun a c => ∀ i ∈ a, i ∉ c) →
        (∀ pl ∈ ds.parcels, pl.Nodup) →
        ∀ v, 0 < unwrapWriteCount ds v → unwrapWriteCount ds v = 1) := by
  constructor
  · cases B with
    | zero => simp [unwrap_fmri, pack_fmri, transposeD]
    | succ Bp =>
        have hhead : (pack_fmri (Bp + 1) x ds).headD []
            = (ds.parcels.zip ds.mask).map (fun pm => packRow x pm.1 pm.2) := by
          rw [pack_fmri, List.replicate_succ]; rfl
        rw [unwrap_fmri, hhead, pack_fmri,
          transposeD_replicate ([] : List ℚ) (Bp + 1)
            ((ds.parcels.zip ds.mask).map (fun pm => packRow x pm.1 pm.2)),
          foldBatch_replicate x (Bp + 1) ds.parcels ds.mask
            (List.replicate ds.labels0.length (0 : ℚ)),
          List.map_replicate]
        refine congrArg (List.replicate (Bp + 1)) (congrArg (selectMask · _) ?_)
        have hlen : ((ds.parcels.zip ds.mask).foldl
            (fun rr pm => writeAt rr pm.1 (selectMask (packRow x pm.1 pm.2) pm.2))
            (List.replicate ds.labels0.length (0 : ℚ))).length
            = ds.labels0.length := by
          rw [length_foldl_writeAt]; simp
        calc ((ds.parcels.zip ds.mask).foldl
              (fun rr pm => writeAt rr pm.1 (selectMask (packRow x pm.1 pm.2) pm.2))
              (List.replicate ds.labels0.length (0 : ℚ)))
            = (List.range ds.labels0.length).map
                (fun v => ((ds.parcels.zip ds.mask).foldl
                  (fun rr pm => writeAt rr pm.1 (selectMask (packRow x pm.1 pm.2) pm.2))
                  (List.replicate ds.labels0.length (0 : ℚ))).getD v 0) := by
              conv_lhs => rw [← map_getD_range ((ds.parcels.zip ds.mask).foldl
                (fun rr pm => writeAt rr pm.1 (selectMask (packRow x pm.1 pm.2) pm.2))
                (List.replicate ds.labels0.length (0 : ℚ))) 0]
              rw [hlen]
          _ = (List.range ds.labels0.length).map
                (fun v => if 0 < unwrapWriteCount ds v then x.getD v 0 else 0) := by
              refine List.map_congr_left ?_
              intro v _
              rw [getD_foldl_writeAt x v (ds.parcels.zip ds.mask)
                (List.replicate ds.labels0.length (0 : ℚ))
                (by intro pm hpm i hi
                    rw [List.length_replicate]
                    exact hin pm hpm i hi)
                hwf]
              rw [if_congr (covered_iff_pos_writeCount ds v hwf) rfl rfl]
              have hz : (List.replicate ds.labels0.length (0 : ℚ)).getD v 0 = 0 := by
                rw [List.getD_eq_getElem?_getD, List.getElem?_replicate]
                split <;> rfl
              rw [hz]
  · intro hdisj hnd v hpos
    have hpw : (ds.parcels.zip ds.mask).Pairwise (fun a b => ∀ i ∈ a.1, i ∉ b.1) :=
      pairwise_zip _ ds.parcels ds.mask hdisj
    refine sum_count_eq_one v (ds.parcels.zip ds.mask) hpw ?_ hwf hpos
    intro pm hpm
    obtain ⟨a, b⟩ := pm
    exact hnd a (List.of_mem_zip hpm).1

/-- Counterexample to C2 as stated: with the overlapping parcel index lists
`[[0], [0]]` (both all-valid), voxel 0 is covered by a valid parcel slot but
receives two direct-assignment writes from the `unwrap_fmri` loop, not
exactly one. -/
theorem unwrap_write_count_cex :
    0 < unwrapWriteCount ⟨[[0], [0]], [[true], [true]], [[0]]⟩ 0
    ∧ unwrapWriteCount ⟨[[0], [0]], [[true], [true]], [[0]]⟩ 0 = 2 := by
  decide

theorem unwrap_pack_left_inverse_witness :
    unwrap_fmri 1
        (pack_fmri 1 [5, 6, 7] ⟨[[0], [2]], [[true, false], [true, false]],
          [[0], [1], [0]]⟩) ⟨[[0], [2]], [[true, false], [true, false]],
          [[0], [1], [0]]⟩ 0
      = [[5, 7]]
    ∧ unwrapWriteCount ⟨[[0], [2]], [[true, false], [true, false]],
        [[0], [1], [0]]⟩ 0 = 1 := by
  have h := unwrap_pack_left_inverse 1 [5, 6, 7]
    ⟨[[0], [2]], [[true, false], [true, false]], [[0], [1], [0]]⟩ 0
    (by decide) (by decide)
  refine ⟨?_, h.2 (by decide) (by decide) 0 (by decide)⟩
  rw [h.1]
  decide

/-! ### Training-step control flow (`train_one_epoch`, src/engine.py) -/

/-- A scalar produced by `loss.item()`: a Python float, modelled as a
rational together with the non-finite values `math.isfinite` distinguishes. -/
inductive FloatVal : Type
  | finiteVal (q : ℚ)
  | nan
  | posInf
  | negInf
deriving DecidableEq

/-- `math.isfinite` on the modelled float. -/
def FloatVal.isfinite : FloatVal → Bool
  | .finiteVal _ => true
  | _ => false

/-- The optimizer-related operations of one training step, in program order:
`optimizer.zero_grad()`, `loss.backward()`,
`torch.nn.utils.clip_grad_norm_(...)`, `optimizer.step()`. -/
inductive Action : Type
  | zeroGrad
  | backward
  | clipGradNorm
  | optimizerStep
deriving DecidableEq

/-- Outcome of one step's divergence check and update block. -/
inductive StepOutcome : Type
  | exited (code : Nat)
  | completed (actions : List Action)
deriving DecidableEq

/-- The per-batch check-and-update block of `train_one_epoch` (src/engine.py,
lines 49-60): if `not math.isfinite(loss_value)`, print and `sys.exit(1)`
before any optimizer work; otherwise run `zero_grad`, `backward`, clipping
only when `max_norm > 0`, then `optimizer.step()`, in that order. -/
def train_step (max_norm : ℚ) (loss_value : FloatVal) : StepOutcome :=
  if ¬ loss_value.isfinite then .exited 1
  else .completed
    ([Action.zeroGrad, Action.backward]
      ++ (if max_norm > 0 then [Action.clipGradNorm] else [])
      ++ [Action.optimizerStep])

/-- The epoch loop viewed at the level of per-batch loss scalars: process
batches until exhaustion, or stop the whole run at the first non-finite
loss.  Returns the actions of the executed steps and whether the run was
terminated by the finiteness check. -/
def train_epoch_steps (max_norm : ℚ) : List FloatVal → List (List Action) × Bool
  | [] => ([], false)
  | lv :: rest =>
      match train_step max_norm lv with
      | .exited _ => ([], true)
      | .completed acts =>
          ((acts :: (train_epoch_steps max_norm rest).1),
            (train_epoch_steps max_norm rest).2)

/-- **C3**: a non-finite loss terminates the run at once — the step performs
no optimizer work (no backward, no clipping, no optimizer step) and no later
batch is processed — while a finite loss never triggers this termination:
its step always completes, including backward and the optimizer step. -/
theorem train_step_finite_check (max_norm : ℚ) (lv : FloatVal)
    (rest : List FloatVal) :
    (lv.isfinite = false →
      train_step max_norm lv = .exited 1
      ∧ train_epoch_steps max_norm (lv :: rest) = ([], true))
    ∧ (lv.isfinite = true →
      ∃ acts, train_step max_norm lv = .completed acts
        ∧ Action.backward ∈ acts ∧ Action.optimizerStep ∈ acts
        ∧ train_epoch_steps max_norm (lv :: rest)
            = (acts :: (train_epoch_steps max_norm rest).1,
               (train_epoch_steps max_norm rest).2)) := by
  constructor
  · intro hnf
    have hstep : train_step max_norm lv = .exited 1 := by
      rw [train_step, if_pos (by rw [hnf]; exact Bool.false_ne_true)]
    exact ⟨hstep, by rw [train_epoch_steps, hstep]⟩
  · intro hf
    refine ⟨[Action.zeroGrad, Action.backward]
      ++ (if max_norm > 0 then [Action.clipGradNorm] else [])
      ++ [Action.optimizerStep], ?_, by simp, by simp, ?_⟩
    · rw [train_step, if_neg (by rw [hf]; exact fun h => h rfl)]
    · rw [train_epoch_steps, train_step, if_neg (by rw [hf]; exact fun h => h rfl)]

theorem train_step_finite_check_witness :
    train_step 0 FloatVal.nan = StepOutcome.exited 1
    ∧ train_epoch_steps 0 [FloatVal.nan, FloatVal.finiteVal 1] = ([], true) :=
  (train_step_finite_check 0 FloatVal.nan [FloatVal.finiteVal 1]).1 (by decide)

/-- **C9**: in a completing training step, gradient clipping happens exactly
when the configured max-norm threshold is strictly positive; with a zero or
negative threshold the action sequence goes from backward straight to the
optimizer step with no clipping. -/
theorem train_step_clip_iff (max_norm : ℚ) (lv : FloatVal)
    (h : lv.isfinite = true) :
    (∀ acts, train_step max_norm lv = .completed acts →
      (Action.clipGradNorm ∈ acts ↔ 0 < max_norm))
    ∧ (¬ 0 < max_norm →
        train_step max_norm lv
          = .completed [Action.zeroGrad, Action.backward, Action.optimizerStep])
    ∧ (0 < max_norm →
        train_step max_norm lv
          = .completed [Action.zeroGrad, Action.backward, Action.clipGradNorm,
              Action.optimizerStep]) := by
  have hne : ¬ (¬ lv.isfinite = true) := by rw [h]; exact fun hc => hc rfl
  refine ⟨?_, ?_, ?_⟩
  · intro acts hacts
    rw [train_step, if_neg hne] at hacts
    have hval := (StepOutcome.completed.injEq _ _).mp hacts.symm
    rw [hval]
    by_cases hpos : 0 < max_norm
    · simp [if_pos (show max_norm > 0 from hpos), hpos]
    · simp only [if_neg (show ¬ max_norm > 0 from hpos)]
      simp [hpos]
  · intro hnp
    rw [train_step, if_neg hne, if_neg (show ¬ max_norm > 0 from hnp)]
    rfl
  · intro hp
    rw [train_step, if_neg hne, if_pos (show max_norm > 0 from hp)]
    rfl

theorem train_step_clip_iff_witness :
    train_step 1 (FloatVal.finiteVal 0)
      = StepOutcome.completed [Action.zeroGrad, Action.backward,
          Action.clipGradNorm, Action.optimizerStep] :=
  (train_step_clip_iff 1 (FloatVal.finiteVal 0) (by decide)).2.2 (by norm_num)

/-! ### Loss normalization, the logging loop, and evaluate (src/engine.py) -/

/-- `dataset.mask.sum()` — `num_valid_voxels`, the number of true entries of
the slot-validity mask, computed once per dataset before each loop. -/
def num_valid_voxels (ds : Dataset) : Nat :=
  (ds.mask.map (fun row => row.count true)).sum

/-- The normalized per-batch loss of both loops (src/engine.py, lines 47 and
124): `criterion(outputs, targets) / num_valid_voxels`, where
`outputs = model(imgs)["pred"]`; `model` and `criterion` are the opaque
collaborators. -/
def batchLoss {α : Type} (model : α → List (List (List ℚ)))
    (criterion : List (List (List ℚ)) → List (List (List ℚ)) → ℚ)
    (ds : Dataset) (bt : α × List (List (List ℚ))) : ℚ :=
  criterion (model bt.1) bt.2 / (num_valid_voxels ds : ℚ)

/-- The per-batch training correlation (src/engine.py, lines 68-73): outputs
and targets are passed through `unwrap_fmri` (batch size = leading
dimension), flattened, and fed to
`torch.corrcoef(torch.stack([out.flatten(), y.flatten()]))[0, 1].item()`,
abstracted here as the scalar function `corr` (Pearson's r takes
floating-point square roots; the claims concern its data flow). -/
def batchCorr {α : Type} (model : α → List (List (List ℚ)))
    (corr : List ℚ → List ℚ → ℚ) (ds : Dataset) (meta : Nat)
    (bt : α × List (List (List ℚ))) : ℚ :=
  corr (unwrap_fmri (model bt.1).length (model bt.1) ds meta).flatten
    (unwrap_fmri bt.2.length bt.2 ds meta).flatten

/-- One record sent to `wandb.log` by `train_one_epoch`. -/
structure LogRecord : Type where
  trainingLoss : ℚ
  epoch : Nat
  trainingCorr : ℚ
  batch : Nat
deriving DecidableEq

/-- The running-accumulator logging loop of `train_one_epoch` (src/engine.py,
lines 37-87) with `print_freq = 10`: each step adds the batch's normalized
loss and correlation to `running_loss` / `running_corr`; when
`batch_idx % print_freq == print_freq - 1`, a record of the two running
averages (with the epoch and the global batch index
`batch_idx + epoch * len(data_loader)`) is emitted and both accumulators are
reset to 0. -/
def trainLogsGo {α : Type} (model : α → List (List (List ℚ)))
    (criterion : List (List (List ℚ)) → List (List (List ℚ)) → ℚ)
    (corr : List ℚ → List ℚ → ℚ) (ds : Dataset) (meta : Nat)
    (epoch nBatches : Nat) :
    Nat → ℚ → ℚ → List (α × List (List (List ℚ))) → List LogRecord
  | _, _, _, [] => []
  | idx, rl, rc, bt :: rest =>
      if idx % 10 = 9 then
        ⟨(rl + batchLoss model criterion ds bt) / 10, epoch,
          (rc + batchCorr model corr ds meta bt) / 10, idx + epoch * nBatches⟩
          :: trainLogsGo model criterion corr ds meta epoch nBatches (idx + 1) 0 0 rest
      else
        trainLogsGo model criterion corr ds meta epoch nBatches (idx + 1)
          (rl + batchLoss model criterion ds bt)
          (rc + batchCorr model corr ds meta bt) rest

/-- The full sequence of log records of one `train_one_epoch` call: the loop
starts at `batch_idx = 0` with both accumulators 0. -/
def train_one_epoch_logs {α : Type} (model : α → List (List (List ℚ)))
    (criterion : List (List (List ℚ)) → List (List (List ℚ)) → ℚ)
    (corr : List ℚ → List ℚ → ℚ) (ds : Dataset) (meta : Nat)
    (epoch nBatches : Nat) (batches : List (α × List (List (List ℚ)))) :
    List LogRecord :=
  trainLogsGo model criterion corr ds meta epoch nBatches 0 0 0 batches

/-- One value of a Python return tuple: a tensor or a scalar. -/
inductive PyVal : Type
  | tensor (t : List (List ℚ))
  | scalar (q : ℚ)
deriving DecidableEq

/-- The accumulation loop of `evaluate` (src/engine.py, lines 119-144): for
each batch, `outputs = model(imgs)["pred"]`, the normalized loss is computed
and handed to the metric logger, and the metaparcel reconstructions of
outputs and targets are appended to `preds` and `ys`.  Accumulators, in
order: (`preds`, `ys`, logged losses). -/
def evaluate_loop {α : Type} (model : α → List (List (List ℚ)))
    (criterion : List (List (List ℚ)) → List (List (List ℚ)) → ℚ)
    (ds : Dataset) (meta : Nat) (batches : List (α × List (List (List ℚ)))) :
    List (List (List ℚ)) × List (List (List ℚ)) × List ℚ :=
  batches.foldl
    (fun acc bt =>
      (acc.1 ++ [unwrap_fmri (model bt.1).length (model bt.1) ds meta],
       acc.2.1 ++ [unwrap_fmri bt.2.length bt.2 ds meta],
       acc.2.2 ++ [batchLoss model criterion ds bt]))
    ([], [], [])

/-- `evaluate` (src/engine.py, lines 104-149): runs under `torch.no_grad()`;
after the loop the metric logger is synchronized and its averaged stats are
printed, and the return statement yields the pair
`torch.vstack(ys), torch.vstack(preds)` — targets first, predictions second;
the loss is not part of the return value.  `torch.vstack` concatenates the
per-batch matrices along the rows, here `List.flatten`. -/
def evaluate {α : Type} (model : α → List (List (List ℚ)))
    (criterion : List (List (List ℚ)) → List (List (List ℚ)) → ℚ)
    (batches : List (α × List (List (List ℚ)))) (ds : Dataset) (meta : Nat) :
    List PyVal :=
  [PyVal.tensor ((evaluate_loop model criterion ds meta batches).2.1).flatten,
   PyVal.tensor ((evaluate_loop model criterion ds meta batches).1).flatten]

theorem foldl_append3 {α β γ δ : Type} (f : α → β) (g : α → γ) (h : α → δ) :
    ∀ (l : List α) (a : List β) (b : List γ) (c : List δ),
      l.foldl
        (fun acc bt => (acc.1 ++ [f bt], acc.2.1 ++ [g bt], acc.2.2 ++ [h bt]))
        (a, b, c)
        = (a ++ l.map f, b ++ l.map g, c ++ l.map h) := by
  intro l
  induction l with
  | nil => intro a b c; simp
  | cons bt t ih =>
      intro a b c
      rw [List.foldl_cons]
      rw [ih (a ++ [f bt]) (b ++ [g bt]) (c ++ [h bt])]
      simp

/-- **C6**: every reported loss — each step of the training loop and each
logged loss of `evaluate` — is the criterion value of that batch divided by
the dataset's valid-voxel count, a single constant fixed by the dataset
before the loop; jointly doubling the valid-voxel count and the raw
sum-reduced loss leaves the normalized loss unchanged. -/
theorem loss_normalization {α : Type} (model : α → List (List (List ℚ)))
    (criterion : List (List (List ℚ)) → List (List (List ℚ)) → ℚ)
    (ds : Dataset) (meta : Nat) (batches : List (α × List (List (List ℚ))))
    (ds2 : Dataset) :
    ((evaluate_loop model criterion ds meta batches).2.2
        = batches.map (fun bt => criterion (model bt.1) bt.2 / (num_valid_voxels ds : ℚ)))
    ∧ (∀ bt : α × List (List (List ℚ)),
        batchLoss model criterion ds bt
          = criterion (model bt.1) bt.2 / (num_valid_voxels ds : ℚ))
    ∧ (num_valid_voxels ds ≠ 0 → num_valid_voxels ds2 = 2 * num_valid_voxels ds →
        ∀ L : ℚ, L / (num_valid_voxels ds : ℚ)
          = (2 * L) / (num_valid_voxels ds2 : ℚ)) := by
  refine ⟨?_, fun bt => rfl, ?_⟩
  · rw [evaluate_loop, foldl_append3]
    simp [batchLoss]
  · intro _ h2 L
    rw [h2]
    push_cast
    rw [mul_div_mul_left _ _ (two_ne_zero)]

theorem loss_normalization_witness :
    (3 : ℚ) / (num_valid_voxels ⟨[], [[true]], []⟩ : ℚ)
      = (2 * 3) / (num_valid_voxels ⟨[], [[true, true]], []⟩ : ℚ) :=
  (loss_normalization (fun _ : Unit => ([] : List (List (List ℚ))))
    (fun _ _ => 6) ⟨[], [[true]], []⟩ 0 [((), [])]
    ⟨[], [[true, true]], []⟩).2.2 (by decide) (by decide) 3

theorem trainLogsGo_short {α : Type} (model : α → List (List (List ℚ)))
    (criterion : List (List (List ℚ)) → List (List (List ℚ)) → ℚ)
    (corr : List ℚ → List ℚ → ℚ) (ds : Dataset) (meta epoch nB : Nat) :
    ∀ (batches : List (α × List (List (List ℚ)))) (idx : Nat) (rl rc : ℚ),
      batches.length + idx % 10 < 10 →
      trainLogsGo model criterion corr ds meta epoch nB idx rl rc batches = [] := by
  intro batches
  induction batches with
  | nil => intro idx rl rc _; rfl
  | cons bt rest ih =>
      intro idx rl rc hlen
      rw [List.length_cons] at hlen
      have hmod : ¬ idx % 10 = 9 := by omega
      rw [trainLogsGo, if_neg hmod]
      refine ih (idx + 1) _ _ ?_
      omega

theorem trainLogsGo_window {α : Type} (model : α → List (List (List ℚ)))
    (criterion : List (List (List ℚ)) → List (List (List ℚ)) → ℚ)
    (corr : List ℚ → List ℚ → ℚ) (ds : Dataset) (meta epoch nB : Nat) :
    ∀ (k : Nat) (batches : List (α × List (List (List ℚ)))) (idx : Nat) (rl rc : ℚ),
      k ≤ 9 → idx % 10 = 9 - k → k + 1 ≤ batches.length →
      trainLogsGo model criterion corr ds meta epoch nB idx rl rc batches
        = ⟨(rl + ((batches.take (k + 1)).map (batchLoss model criterion ds)).sum) / 10,
            epoch,
            (rc + ((batches.take (k + 1)).map (batchCorr model corr ds meta)).sum) / 10,
            idx + k + epoch * nB⟩
          :: trainLogsGo model criterion corr ds meta epoch nB (idx + (k + 1)) 0 0
              (batches.drop (k + 1)) := by
  intro k
  induction k with
  | zero =>
      intro batches idx rl rc _ hmod hlen
      cases batches with
      | nil => simp at hlen
      | cons bt rest =>
          rw [trainLogsGo, if_pos (by omega)]
          simp only [List.take_succ_cons, List.take_zero, List.map_cons, List.map_nil,
            List.sum_cons, List.sum_nil, List.drop_succ_cons, List.drop_zero]
          refine congrArg₂ (· :: ·) ?_ rfl
          simp only [LogRecord.mk.injEq]
          exact ⟨by ring, trivial, by ring, by omega⟩
  | succ k ih =>
      intro batches idx rl rc hk hmod hlen
      cases batches with
      | nil => simp at hlen
      | cons bt rest =>
          rw [trainLogsGo, if_neg (by omega)]
          rw [List.length_cons] at hlen
          rw [ih rest (idx + 1) _ _ (by omega) (by omega) (by omega)]
          simp only [List.take_succ_cons, List.map_cons, List.sum_cons,
            List.drop_succ_cons]
          refine congrArg₂ (· :: ·) ?_ ?_
          · simp only [LogRecord.mk.injEq]
            exact ⟨by ring, trivial, by ring, by omega⟩
          · have h2 : idx + 1 + (k + 1) = idx + (k + 1 + 1) := by omega
            rw [h2]

/-- **C7**: in `train_one_epoch`, each step accumulates the batch's
normalized loss and the scalar correlation between the flattened
metaparcel-restricted reconstructions of predictions and targets; whenever
the batch index hits the end of a `print_freq = 10` window, a record holding
the running averages over those 10 steps is emitted externally and both
accumulators restart from zero (the emitted tail is the same loop with
accumulators 0); windows never complete with fewer than 10 remaining
batches, so a shorter remainder emits nothing. -/
theorem train_logs_every_ten {α : Type} (model : α → List (List (List ℚ)))
    (criterion : List (List (List ℚ)) → List (List (List ℚ)) → ℚ)
    (corr : List ℚ → List ℚ → ℚ) (ds : Dataset) (meta epoch nB : Nat)
    (batches : List (α × List (List (List ℚ)))) (idx : Nat) (rl rc : ℚ)
    (hidx : idx % 10 = 0) :
    (batches.length < 10 →
      trainLogsGo model criterion corr ds meta epoch nB idx rl rc batches = [])
    ∧ (10 ≤ batches.length →
      trainLogsGo model criterion corr ds meta epoch nB idx rl rc batches
        = ⟨(rl + ((batches.take 10).map (batchLoss model criterion ds)).sum) / 10,
            epoch,
            (rc + ((batches.take 10).map (batchCorr model corr ds meta)).sum) / 10,
            idx + 9 + epoch * nB⟩
          :: trainLogsGo model criterion corr ds meta epoch nB (idx + 10) 0 0
              (batches.drop 10)) := by
  constructor
  · intro hshort
    exact trainLogsGo_short model criterion corr ds meta epoch nB batches idx rl rc
      (by omega)
  · intro hlong
    exact trainLogsGo_window model criterion corr ds meta epoch nB 9 batches idx rl rc
      (by omega) (by omega) (by omega)

theorem train_logs_every_ten_witness :
    train_one_epoch_logs (fun _ : Unit => ([] : List (List (List ℚ))))
      (fun _ _ => 11) (fun _ _ => 37) ⟨[], [[true]], []⟩ 0 0 10
      (List.replicate 10 ((), ([] : List (List (List ℚ)))))
      = [⟨11, 0, 37, 9⟩] := by
  have h := (train_logs_every_ten (fun _ : Unit => ([] : List (List (List ℚ))))
    (fun _ _ => 11) (fun _ _ => 37) ⟨[], [[true]], []⟩ 0 0 10
    (List.replicate 10 ((), ([] : List (List (List ℚ))))) 0 0 0 (by decide)).2
    (by decide)
  rw [train_one_epoch_logs, h]
  norm_num [batchLoss, batchCorr, num_valid_voxels, List.take_replicate,
    List.drop_replicate, List.map_replicate, List.sum_replicate, trainLogsGo,
    List.replicate_zero, nsmul_eq_mul]

/-- Counterexample to C8 as stated: `evaluate`'s return statement yields only
the two stacked tensors — at this concrete input the returned tuple has two
components, never a third averaged-loss component. -/
theorem evaluate_no_loss_returned :
    (evaluate (fun _ : Unit => ([] : List (List (List ℚ)))) (fun _ _ => 0)
      [((), [])] ⟨[], [], []⟩ 0).length ≠ 3 := by
  decide

/-- **C8** (amended): after exhausting the data source, `evaluate` (run under
`torch.no_grad()`) returns exactly two stacked tensors — all targets first
and all predictions second, each row-stacked in evaluation order over the
metaparcel-restricted reconstructions of every batch; the synchronized
averaged loss is printed but is not part of the return value. -/
theorem evaluate_returns {α : Type} (model : α → List (List (List ℚ)))
    (criterion : List (List (List ℚ)) → List (List (List ℚ)) → ℚ)
    (batches : List (α × List (List (List ℚ)))) (ds : Dataset) (meta : Nat) :
    evaluate model criterion batches ds meta
      = [PyVal.tensor
            (batches.map (fun bt => unwrap_fmri bt.2.length bt.2 ds meta)).flatten,
         PyVal.tensor
            (batches.map (fun bt =>
              unwrap_fmri (model bt.1).length (model bt.1) ds meta)).flatten]
    ∧ (evaluate model criterion batches ds meta).length = 2 := by
  constructor
  · rw [evaluate, evaluate_loop, foldl_append3]
    simp
  · rfl

end WholeBrain
